import Mathlib

/-!
Verification development for the certifiable-inference numeric kernel
library: Q16.16 fixed-point arithmetic, the matrix view type, 2D
convolution (src/core/convolution.c), in-place activations
(activations.c), 2x2 max pooling (pooling.c), and the deterministic
hash table (modelled from the design spec; its implementation file is
absent from the tree, only its tests and structure documentation are).

Machine integers are modelled as Nat / Int with explicit reductions
modulo powers of two where the C code converts between widths:
- a value stored into `int32_t` / `fixed_t` passes through `wrap32`;
- the 64-bit accumulator wraps through `wrap64`;
- a value stored into `uint16_t` is reduced modulo 65536.
Row and column counts are kept as `Nat` (the structure documentation,
CI-STRUCT-001 section 4.1, declares them as nonnegative `int` values).
Buffers are `List Int`; a NULL data pointer is `Option.none`.
-/

/-- Reduction of an Int into the signed 32-bit range, as a C cast to
`int32_t` (two-s complement wrap-around). -/
def wrap32 (x : Int) : Int := (x + 2147483648) % 4294967296 - 2147483648

/-- Reduction of an Int into the signed 64-bit range, as C arithmetic on
`int64_t` (two-s complement wrap-around). -/
def wrap64 (x : Int) : Int :=
  (x + 9223372036854775808) % 18446744073709551616 - 9223372036854775808

/-- Arithmetic shift right by FIXED_SHIFT = 16 bits on a signed value:
floor division by 65536. -/
def sar16 (x : Int) : Int := Int.fdiv x 65536

/-- The matrix view type `fx_matrix_t` of CI-STRUCT-001 section 4.1: a
non-owning pointer to a row-major buffer of Q16.16 values plus row and
column counts. `data = none` models a NULL data pointer; the list models
the pointed-to buffer, whose length is the caller-allocated capacity. -/
structure FxMatrix where
  data : Option (List Int)
  rows : Nat
  cols : Nat
deriving DecidableEq

/-- Modelled from the spec: `fixed_mul` (the fixed-point module is not in
the tree; section 4.1 of the design spec defines multiply as: widen both
operands to 64 bits, multiply, add the rounding bias FIXED_HALF = 32768,
arithmetic-shift right by FIXED_SHIFT = 16, store into `fixed_t`). -/
def fixed_mul (a b : Int) : Int := wrap32 (sar16 (a * b + 32768))

/-- Applies `f` to the first `n` elements of a list and keeps the rest:
the elementwise in-place loop `for i < total: data[i] = f(data[i])`
shared by the activation functions. -/
def applyFirst (f : Int → Int) : Nat → List Int → List Int
  | _, [] => []
  | 0, l => l
  | n + 1, x :: xs => f x :: applyFirst f n xs

/-- Body of the `fx_relu` loop: negative values become FIXED_ZERO = 0,
others pass through. -/
def reluStep (x : Int) : Int := if x < 0 then 0 else x

/-- Function `fx_relu` from activations.c: NULL guard, then in place over the
first rows*cols elements replace negative values with zero. -/
def fx_relu (m : FxMatrix) : FxMatrix :=
  match m.data with
  | none => m
  | some buf => { m with data := some (applyFirst reluStep (m.rows * m.cols) buf) }

/-- Function `fx_leaky_relu` from activations.c: NULL guard, then in place over
the first rows*cols elements replace negative values with
`fixed_mul value alpha`. -/
def fx_leaky_relu (m : FxMatrix) (alpha : Int) : FxMatrix :=
  match m.data with
  | none => m
  | some buf =>
      let buf2 := applyFirst (fun x => if x < 0 then fixed_mul x alpha else x)
        (m.rows * m.cols) buf
      { m with data := some buf2 }

/-- One output cell of `fx_conv2d`: the kernel loops accumulate
`(int64)input_val * kernel_val` into a 64-bit accumulator (wrapping),
then add FIXED_HALF = 32768 and arithmetic-shift right by 16, storing the
result into `fixed_t`. The input positions `out_row + ker_row` and
`out_col + ker_col` pass through `uint16_t` variables, hence the
reductions modulo 65536. -/
def convCell (ind kd : List Int) (icols krows kcols r c : Nat) : Int :=
  let acc :=
    (List.range krows).foldl (fun acc ki =>
      (List.range kcols).foldl (fun acc kj =>
        let ir := (r + ki) % 65536
        let ic := (c + kj) % 65536
        let iv := ind.getD (ir * icols + ic) 0
        let kv := kd.getD (ki * kcols + kj) 0
        wrap64 (acc + iv * kv)) acc) 0
  wrap32 (sar16 (wrap64 (acc + 32768)))

/-- The double write loop shared by convolution: for each output row `r`
and column `c` (in row-major order) store `f r c` at offset
`r * cols + c` of the output buffer. -/
def writeGrid (f : Nat → Nat → Int) (nr nc cols : Nat) (od : List Int) : List Int :=
  (List.range nr).foldl (fun od r =>
    (List.range nc).foldl (fun od c => od.set (r * cols + c) (f r c)) od) od

/-- Function `fx_conv2d` from convolution.c, acting on dereferenced matrices:
NULL-data guard, kernel-fits guard, expected-output-shape guard (each an
early return leaving the output untouched), then the sliding-window
loops writing every output cell. The expected output dimensions are
stored into `uint16_t` locals, hence the reductions modulo 65536.
Returns the state of the output matrix after the call. -/
def fx_conv2d (inm kernel out : FxMatrix) : FxMatrix :=
  match inm.data, kernel.data, out.data with
  | some ind, some kd, some od =>
      if kernel.rows > inm.rows ∨ kernel.cols > inm.cols then out
      else
        let expRows := (inm.rows - kernel.rows + 1) % 65536
        let expCols := (inm.cols - kernel.cols + 1) % 65536
        if out.rows ≠ expRows ∨ out.cols ≠ expCols then out
        else
          let od2 := writeGrid
            (fun r c => convCell ind kd inm.cols kernel.rows kernel.cols r c)
            out.rows out.cols out.cols od
          { out with data := some od2 }
  | _, _, _ => out

/-- The call `fx_conv2d(in, kernel, out)` at the pointer level: a NULL
matrix pointer among the three arguments trips the first guard and the
function returns leaving the output object (when there is one) as it
was. The result is the state of `*out` after the call. -/
def conv2dCall : Option FxMatrix → Option FxMatrix → Option FxMatrix → Option FxMatrix
  | some i, some k, some o => some (fx_conv2d i k o)
  | _, _, o => o

/-- Sequential max of a 2x2 window, exactly as pooling.c: seed with `a`,
then three data-independent compare-and-update steps. -/
def maxSeq (a b c d : Int) : Int :=
  let m := a
  let m := if b > m then b else m
  let m := if c > m then c else m
  if d > m then d else m

/-- One window of `fx_maxpool_2x2`, with guarded (Option-returning)
buffer reads. The row offsets `i * in->cols` and `(i+1) * in->cols` are
stored into `uint16_t` locals in the source, hence the reductions modulo
65536. -/
def poolCellRead (ind : List Int) (icols i j : Nat) : Option Int :=
  let r1 := (i * icols) % 65536
  let r2 := ((i + 1) * icols) % 65536
  match ind[r1 + j]?, ind[r1 + j + 1]?, ind[r2 + j]?, ind[r2 + j + 1]? with
  | some a, some b, some c, some d => some (maxSeq a b c d)
  | _, _, _, _ => none

/-- The pure value of one pool window (total counterpart of
`poolCellRead`, used to state per-cell results). -/
def poolCellVal (ind : List Int) (icols i j : Nat) : Int :=
  let r1 := (i * icols) % 65536
  let r2 := ((i + 1) * icols) % 65536
  maxSeq (ind.getD (r1 + j) 0) (ind.getD (r1 + j + 1) 0)
    (ind.getD (r2 + j) 0) (ind.getD (r2 + j + 1) 0)

/-- Guarded write into the output buffer: fails (models an out-of-bounds
access) when the offset is outside the buffer. -/
def setGuard (l : List Int) (i : Nat) (v : Int) : Option (List Int) :=
  if i < l.length then some (l.set i v) else none

/-- Function `fx_maxpool_2x2` from pooling.c. The assertions (non-NULL data, even
input dimensions, halved output dimensions) abort on failure, modelled
as `none`; the window loops step `i`, `j` by two while the output
counters advance by one, so window (wr, wc) covers input rows 2*wr and
2*wr+1 and the write lands at `out_row * out->cols + out_col`. Guarded
reads and writes return `none` on an out-of-bounds access. -/
def fx_maxpool_2x2 (inm out : FxMatrix) : Option FxMatrix :=
  match inm.data, out.data with
  | some ind, some od =>
      if inm.rows % 2 ≠ 0 ∨ inm.cols % 2 ≠ 0 then none
      else if out.rows ≠ inm.rows / 2 ∨ out.cols ≠ inm.cols / 2 then none
      else
        match (List.range (inm.rows / 2)).foldlM (fun od wr =>
            (List.range (inm.cols / 2)).foldlM (fun od wc =>
              match poolCellRead ind inm.cols (2 * wr) (2 * wc) with
              | some v => setGuard od (wr * out.cols + wc) v
              | none => none) od) od with
        | some od2 => some { out with data := some od2 }
        | none => none
  | _, _ => none

/-- Modelled from the spec: FNV-1a over the key bytes — seed 2166136261,
multiplier 16777619, one XOR-then-multiply step per byte, all in 32-bit
unsigned arithmetic. Keys are byte lists. -/
def fnv1a (key : List Nat) : Nat :=
  key.foldl (fun h b => ((h ^^^ b) * 16777619) % 4294967296) 2166136261

/-- Modelled from the spec: result codes of hash table operations
(CI-STRUCT-001 section 8.1). -/
inductive DRes
  | ok
  | keyExists
  | full
  | error
deriving DecidableEq

/-- Modelled from the spec: the deterministic hash table `d_table_t`
(CI-STRUCT-001 section 8.3) — an entries array used with linear probing,
a parallel array recording the slot index of each insertion in order, a
capacity and a count. A slot is `none` when unoccupied. -/
structure DTable where
  capacity : Nat
  entries : List (Option (List Nat × Int))
  order : List Nat
  count : Nat
deriving DecidableEq

/-- Modelled from the spec: `init` zeroes the entry and order regions and
sets the count to zero. -/
def dtableInit (cap : Nat) : DTable :=
  { capacity := cap, entries := List.replicate cap none, order := [], count := 0 }

/-- The slot sequence probed for a key with hash `h`: `(h + attempt) mod
capacity` for attempt = 0, 1, ..., capacity - 1 (linear probing; after
`capacity` attempts the sequence repeats). -/
def probeSeq (cap h : Nat) : List Nat :=
  (List.range cap).map (fun a => (h + a) % cap)

/-- A probe stops at a slot that is empty or holds an equal key. -/
def slotStops (t : DTable) (k : List Nat) (i : Nat) : Bool :=
  match t.entries.getD i none with
  | none => true
  | some (k2, _) => decide (k2 = k)

/-- First slot of the probe sequence at which the probe stops. -/
def findSlot (t : DTable) (k : List Nat) : Option Nat :=
  (probeSeq t.capacity (fnv1a k)).find? (slotStops t k)

/-- Modelled from the spec: `insert` — at capacity fail with Full
(state unchanged); otherwise linearly probe from the hash of the key; an
occupied slot with an equal key fails with KeyExists leaving the table
unchanged; an empty slot is claimed, its index is recorded as the next
insertion-order entry and the count is incremented. -/
def dtableInsert (t : DTable) (k : List Nat) (v : Int) : DTable × DRes :=
  if t.count = t.capacity then (t, DRes.full)
  else
    match findSlot t k with
    | none => (t, DRes.error)
    | some i =>
        match t.entries.getD i none with
        | some _ => (t, DRes.keyExists)
        | none =>
            ({ capacity := t.capacity
               entries := t.entries.set i (some (k, v))
               order := t.order ++ [i]
               count := t.count + 1 }, DRes.ok)

/-- Modelled from the spec: `iterate` visits entries through the
insertion-order array, not in bucket order; the visitor receives each
key/value pair, so the observable behaviour is this list. -/
def dtableIterate (t : DTable) : List (List Nat × Int) :=
  t.order.filterMap (fun i => t.entries.getD i none)

/-- Inserting a sequence of key/value pairs in order, keeping only the
table states (the result codes are dropped). -/
def insertAll (t : DTable) (kvs : List (List Nat × Int)) : DTable :=
  kvs.foldl (fun t kv => (dtableInsert t kv.1 kv.2).1) t

/-- Setting a slot keeps the value at every other offset. -/
theorem getD_set_ne (l : List Int) (i j : Nat) (v : Int) (h : i ≠ j) :
    (l.set i v).getD j 0 = l.getD j 0 := by
  induction l generalizing i j with
  | nil => cases i <;> rfl
  | cons x xs ih =>
      cases i with
      | zero =>
          cases j with
          | zero => exact absurd rfl h
          | succ j => rfl
      | succ i =>
          cases j with
          | zero => rfl
          | succ j =>
              simp only [List.set, List.getD, List.getElem?_cons_succ]
              exact ih i j (fun he => h (congrArg Nat.succ he))

/-- Setting a slot in bounds stores the value at that offset. -/
theorem getD_set_eq (l : List Int) (i : Nat) (v : Int) (h : i < l.length) :
    (l.set i v).getD i 0 = v := by
  induction l generalizing i with
  | nil => simp at h
  | cons x xs ih =>
      cases i with
      | zero => rfl
      | succ i =>
          simp only [List.set, List.getD, List.getElem?_cons_succ]
          exact ih i (Nat.lt_of_succ_lt_succ h)

/-- An in-bounds `getD` yields a member of the list. -/
theorem getD_mem (l : List Int) (i : Nat) (h : i < l.length) : l.getD i 0 ∈ l := by
  induction l generalizing i with
  | nil => simp at h
  | cons x xs ih =>
      cases i with
      | zero => exact List.mem_cons_self x xs
      | succ i => exact List.mem_cons_of_mem x (ih i (Nat.lt_of_succ_lt_succ h))

/-- Lemma: `applyFirst` keeps the length of the buffer. -/
theorem applyFirst_length (f : Int → Int) (n : Nat) (l : List Int) :
    (applyFirst f n l).length = l.length := by
  induction l generalizing n with
  | nil => cases n <;> rfl
  | cons x xs ih =>
      cases n with
      | zero => rfl
      | succ n => simpa [applyFirst] using ih n

/-- Inside the processed region `applyFirst` applies the function. -/
theorem applyFirst_getD_lt (f : Int → Int) (n : Nat) (l : List Int) (i : Nat)
    (hi : i < n) (hl : i < l.length) :
    (applyFirst f n l).getD i 0 = f (l.getD i 0) := by
  induction l generalizing n i with
  | nil => simp at hl
  | cons x xs ih =>
      cases n with
      | zero => exact absurd hi (Nat.not_lt_zero i)
      | succ n =>
          cases i with
          | zero => rfl
          | succ i =>
              simp only [applyFirst, List.getD, List.getElem?_cons_succ]
              exact ih n i (Nat.lt_of_succ_lt_succ hi) (Nat.lt_of_succ_lt_succ hl)

/-- Beyond the processed region `applyFirst` keeps the buffer. -/
theorem applyFirst_getD_ge (f : Int → Int) (n : Nat) (l : List Int) (i : Nat)
    (hi : n ≤ i) :
    (applyFirst f n l).getD i 0 = l.getD i 0 := by
  induction l generalizing n i with
  | nil => cases n <;> rfl
  | cons x xs ih =>
      cases n with
      | zero => rfl
      | succ n =>
          cases i with
          | zero => exact absurd hi (Nat.not_succ_le_zero n)
          | succ i =>
              simp only [applyFirst, List.getD, List.getElem?_cons_succ]
              exact ih n i (Nat.le_of_succ_le_succ hi)

/-- The inner write loop of `writeGrid` over one row. -/
def writeRow (g : Nat → Int) (nc base : Nat) (od : List Int) : List Int :=
  (List.range nc).foldl (fun od c => od.set (base + c) (g c)) od

theorem writeGrid_eq_foldl_writeRow (f : Nat → Nat → Int) (nr nc cols : Nat) (od : List Int) :
    writeGrid f nr nc cols od =
      (List.range nr).foldl (fun od r => writeRow (f r) nc (r * cols) od) od := rfl

theorem writeRow_length (g : Nat → Int) (nc base : Nat) (od : List Int) :
    (writeRow g nc base od).length = od.length := by
  induction nc generalizing od with
  | zero => rfl
  | succ n ih =>
      simp only [writeRow, List.range_succ, List.foldl_append, List.foldl_cons, List.foldl_nil]
      rw [show (List.range n).foldl (fun od c => od.set (base + c) (g c)) od =
        writeRow g n base od from rfl] at *
      simp [List.length_set, ih]

theorem writeRow_getD_outside (g : Nat → Int) (nc base : Nat) (od : List Int) (k : Nat)
    (hk : k < base ∨ base + nc ≤ k) :
    (writeRow g nc base od).getD k 0 = od.getD k 0 := by
  induction nc generalizing od with
  | zero => rfl
  | succ n ih =>
      simp only [writeRow, List.range_succ, List.foldl_append, List.foldl_cons, List.foldl_nil]
      rw [show (List.range n).foldl (fun od c => od.set (base + c) (g c)) od =
        writeRow g n base od from rfl]
      have hne : base + n ≠ k := by omega
      rw [getD_set_ne _ _ _ _ hne]
      exact ih od (by omega)

theorem writeRow_getD_inside (g : Nat → Int) (nc base : Nat) (od : List Int) (c : Nat)
    (hc : c < nc) (hb : base + c < od.length) :
    (writeRow g nc base od).getD (base + c) 0 = g c := by
  induction nc generalizing od with
  | zero => exact absurd hc (Nat.not_lt_zero c)
  | succ n ih =>
      simp only [writeRow, List.range_succ, List.foldl_append, List.foldl_cons, List.foldl_nil]
      rw [show (List.range n).foldl (fun od c => od.set (base + c) (g c)) od =
        writeRow g n base od from rfl]
      rcases Nat.lt_or_ge c n with hcn | hcn
      · have hne : base + n ≠ base + c := by omega
        rw [getD_set_ne _ _ _ _ hne]
        exact ih od hcn hb
      · have hcn2 : c = n := by omega
        subst hcn2
        exact getD_set_eq _ _ _ (by rw [writeRow_length]; exact hb)

theorem writeGrid_length (f : Nat → Nat → Int) (nr nc cols : Nat) (od : List Int) :
    (writeGrid f nr nc cols od).length = od.length := by
  rw [writeGrid_eq_foldl_writeRow]
  induction nr generalizing od with
  | zero => rfl
  | succ n ih =>
      simp only [List.range_succ, List.foldl_append, List.foldl_cons, List.foldl_nil]
      rw [writeRow_length]
      exact ih od

/-- A cell inside the written region of `writeGrid` holds its value. -/
theorem writeGrid_getD (f : Nat → Nat → Int) (nr nc cols : Nat) (od : List Int)
    (r c : Nat) (hr : r < nr) (hc : c < nc) (hnc : nc ≤ cols)
    (hlen : r * cols + c < od.length) :
    (writeGrid f nr nc cols od).getD (r * cols + c) 0 = f r c := by
  rw [writeGrid_eq_foldl_writeRow]
  induction nr generalizing od with
  | zero => exact absurd hr (Nat.not_lt_zero r)
  | succ n ih =>
      simp only [List.range_succ, List.foldl_append, List.foldl_cons, List.foldl_nil]
      rcases Nat.lt_or_ge r n with hrn | hrn
      · rw [show (List.range n).foldl (fun od r => writeRow (f r) nc (r * cols) od) od =
          writeGrid f n nc cols od from (writeGrid_eq_foldl_writeRow f n nc cols od).symm]
        have houts : r * cols + c < n * cols := by
          calc r * cols + c < r * cols + cols := by omega
          _ = (r + 1) * cols := by ring
          _ ≤ n * cols := Nat.mul_le_mul_right cols hrn
        rw [writeRow_getD_outside _ _ _ _ _ (Or.inl (by omega))]
        rw [writeGrid_eq_foldl_writeRow]
        exact ih od hrn hlen
      · have hrn2 : r = n := by omega
        subst hrn2
        exact writeRow_getD_inside _ _ _ _ _ hc (by
          rw [show (List.range r).foldl (fun od rr => writeRow (f rr) nc (rr * cols) od) od =
            writeGrid f r nc cols od from (writeGrid_eq_foldl_writeRow f r nc cols od).symm]
          rw [writeGrid_length]; exact hlen)

/-- Offsets at or past `nr * cols` are untouched by `writeGrid`. -/
theorem writeGrid_getD_ge (f : Nat → Nat → Int) (nr nc cols : Nat) (od : List Int)
    (k : Nat) (hnc : nc ≤ cols) (hk : nr * cols ≤ k) :
    (writeGrid f nr nc cols od).getD k 0 = od.getD k 0 := by
  rw [writeGrid_eq_foldl_writeRow]
  induction nr generalizing od with
  | zero => rfl
  | succ n ih =>
      simp only [List.range_succ, List.foldl_append, List.foldl_cons, List.foldl_nil]
      rw [show (List.range n).foldl (fun od r => writeRow (f r) nc (r * cols) od) od =
        writeGrid f n nc cols od from (writeGrid_eq_foldl_writeRow f n nc cols od).symm]
      have h1 : n * cols + nc ≤ k := by
        have : (n + 1) * cols = n * cols + cols := by ring
        omega
      rw [writeRow_getD_outside _ _ _ _ _ (Or.inr h1)]
      rw [writeGrid_eq_foldl_writeRow]
      exact ih od (by
        have : (n + 1) * cols = n * cols + cols := by ring
        omega)

theorem wrap64_zero : wrap64 0 = 0 := by unfold wrap64; decide

theorem wrap64_wrap64_add (a b : Int) : wrap64 (wrap64 a + b) = wrap64 (a + b) := by
  unfold wrap64; omega

/-- A value already in the signed 64-bit range is fixed by `wrap64`. -/
theorem wrap64_id (x : Int) (h1 : -9223372036854775808 ≤ x)
    (h2 : x < 9223372036854775808) : wrap64 x = x := by
  unfold wrap64; omega

/-- A value already in the signed 32-bit range is fixed by `wrap32`. -/
theorem wrap32_id (x : Int) (h1 : -2147483648 ≤ x) (h2 : x < 2147483648) :
    wrap32 x = x := by
  unfold wrap32; omega

/-- Rewriting `sar16` in terms of Euclidean division (the shift amount is
positive, so floor and Euclidean division agree). -/
theorem sar16_eq_ediv (x : Int) : sar16 x = x / 65536 :=
  Int.fdiv_eq_ediv x (by norm_num)

/-- The Q16.16 round-to-nearest quantization of `x * 65536` recovers
`x`: multiplying by FIXED_ONE and requantizing is exact. -/
theorem sar16_mul_exact (x : Int) : sar16 (x * 65536 + 32768) = x := by
  rw [sar16_eq_ediv]
  omega

/-- A fold of 64-bit wrapped additions computes the wrap of the plain
sum. -/
theorem foldl_wrap64_sum (g : Nat → Int) (l : List Nat) (a : Int) :
    l.foldl (fun acc x => wrap64 (acc + g x)) (wrap64 a) =
      wrap64 (a + (l.map g).sum) := by
  induction l generalizing a with
  | nil => simp
  | cons x xs ih =>
      simp only [List.foldl_cons, List.map_cons, List.sum_cons]
      rw [wrap64_wrap64_add, ih (a + g x), Int.add_assoc]

/-- The nested accumulation loops of one convolution cell compute the
wrap of the plain double sum. -/
theorem foldl2_wrap64_sum (t : Nat → Nat → Int) (nr nc : Nat) (a : Int) :
    (List.range nr).foldl (fun acc ki =>
        (List.range nc).foldl (fun acc kj => wrap64 (acc + t ki kj)) acc)
      (wrap64 a) =
      wrap64 (a + ((List.range nr).map
        (fun ki => ((List.range nc).map (t ki)).sum)).sum) := by
  induction nr generalizing a with
  | zero => simp
  | succ n ih =>
      simp only [List.range_succ, List.foldl_append, List.foldl_cons, List.foldl_nil,
        List.map_append, List.map_cons, List.map_nil, List.sum_append, List.sum_cons,
        List.sum_nil]
      rw [ih a, foldl_wrap64_sum (t n) (List.range nc) (a + _)]
      congr 1
      ring

/-- The mathematical 64-bit dot product of one convolution window: the
sum over all kernel positions of input value times kernel value, with
the true (untruncated) row-major offsets. -/
def convDot (ind kd : List Int) (icols kcols krows : Nat) (r c : Nat) : Int :=
  ((List.range krows).map (fun ki =>
    ((List.range kcols).map (fun kj =>
      ind.getD ((r + ki) * icols + (c + kj)) 0 *
        kd.getD (ki * kcols + kj) 0)).sum)).sum

/-- When every touched input position fits in 16 bits, one convolution
cell is the quantization of the plain accumulated dot product. -/
theorem convCell_spec (ind kd : List Int) (icols krows kcols r c : Nat)
    (hr : r + krows ≤ 65536) (hc : c + kcols ≤ 65536) :
    convCell ind kd icols krows kcols r c =
      wrap32 (sar16 (wrap64 (convDot ind kd icols kcols krows r c + 32768))) := by
  unfold convCell
  simp only []
  have hz := foldl2_wrap64_sum (fun ki kj =>
    ind.getD ((r + ki) % 65536 * icols + (c + kj) % 65536) 0 *
      kd.getD (ki * kcols + kj) 0) krows kcols 0
  rw [wrap64_zero] at hz
  rw [hz, wrap64_wrap64_add]
  have hsum : ((List.range krows).map (fun ki =>
      ((List.range kcols).map (fun kj =>
        ind.getD ((r + ki) % 65536 * icols + (c + kj) % 65536) 0 *
          kd.getD (ki * kcols + kj) 0)).sum)).sum =
      convDot ind kd icols kcols krows r c := by
    unfold convDot
    refine congrArg List.sum (List.map_congr_left (fun ki hki => ?_))
    refine congrArg List.sum (List.map_congr_left (fun kj hkj => ?_))
    have hki2 : ki < krows := List.mem_range.mp hki
    have hkj2 : kj < kcols := List.mem_range.mp hkj
    rw [Nat.mod_eq_of_lt (by omega), Nat.mod_eq_of_lt (by omega)]
  rw [Int.zero_add, hsum]

/-- Shared characterization of a successful `fx_conv2d` call: with
non-NULL buffers, a kernel that fits, the expected output shape, 16-bit
dimensions and an adequate output buffer, every output cell holds the
quantized accumulated dot product. -/
theorem fx_conv2d_cells (I K O : FxMatrix) (ind kd od : List Int)
    (hI : I.data = some ind) (hK : K.data = some kd) (hO : O.data = some od)
    (hkr1 : 1 ≤ K.rows) (hkc1 : 1 ≤ K.cols)
    (hkr : K.rows ≤ I.rows) (hkc : K.cols ≤ I.cols)
    (hor : O.rows = I.rows - K.rows + 1) (hoc : O.cols = I.cols - K.cols + 1)
    (hr16 : I.rows ≤ 65535) (hc16 : I.cols ≤ 65535)
    (hlen : O.rows * O.cols ≤ od.length) :
    ∃ od2, fx_conv2d I K O = { O with data := some od2 } ∧
      od2.length = od.length ∧
      ∀ r c, r < O.rows → c < O.cols →
        od2.getD (r * O.cols + c) 0 =
          wrap32 (sar16 (wrap64 (convDot ind kd I.cols K.cols K.rows r c + 32768))) := by
  refine ⟨writeGrid (fun r c => convCell ind kd I.cols K.rows K.cols r c)
    O.rows O.cols O.cols od, ?_, ?_, ?_⟩
  · unfold fx_conv2d
    rw [hI, hK, hO]
    simp only []
    rw [if_neg (by omega), if_neg (by omega)]
  · exact writeGrid_length _ _ _ _ _
  · intro r c hr hc
    have hcell : r * O.cols + c < od.length := by
      have h1 : (r + 1) * O.cols ≤ O.rows * O.cols :=
        Nat.mul_le_mul_right _ hr
      have h2 : (r + 1) * O.cols = r * O.cols + O.cols := by ring
      omega
    rw [writeGrid_getD _ _ _ _ _ _ _ hr hc (Nat.le_refl _) hcell]
    exact convCell_spec ind kd I.cols K.rows K.cols r c (by omega) (by omega)

/-- Row-major cell offsets stay below the region size. -/
theorem cell_offset_lt (r c rows cols : Nat) (hr : r < rows) (hc : c < cols) :
    r * cols + c < rows * cols := by
  have h1 : (r + 1) * cols ≤ rows * cols := Nat.mul_le_mul_right _ hr
  have h2 : (r + 1) * cols = r * cols + cols := by ring
  omega

/-- C1: for matrices with non-NULL, adequately sized buffers, a kernel
that fits, the expected valid-padding output shape, and 16-bit
dimensions, `fx_conv2d` stores at every output cell the round-to-nearest
Q16.16 quantization `(S + 32768) >> 16` (arithmetic shift = `sar16`,
with the 64-bit accumulator wrap and the final `fixed_t` store made
explicit) of the accumulated dot product S; and the 3x3 all-ones
convolution yields the single cell 9.0 = 589824. -/
theorem C1_conv2d_quantized_dot :
    (∀ (I K O : FxMatrix) (ind kd od : List Int),
      I.data = some ind → K.data = some kd → O.data = some od →
      1 ≤ K.rows → 1 ≤ K.cols →
      K.rows ≤ I.rows → K.cols ≤ I.cols →
      O.rows = I.rows - K.rows + 1 → O.cols = I.cols - K.cols + 1 →
      I.rows ≤ 65535 → I.cols ≤ 65535 →
      O.rows * O.cols ≤ od.length →
      ∃ od2, fx_conv2d I K O = { O with data := some od2 } ∧
        od2.length = od.length ∧
        ∀ r c, r < O.rows → c < O.cols →
          od2.getD (r * O.cols + c) 0 =
            wrap32 (sar16 (wrap64 (convDot ind kd I.cols K.cols K.rows r c + 32768)))) ∧
    fx_conv2d ⟨some (List.replicate 9 65536), 3, 3⟩ ⟨some (List.replicate 9 65536), 3, 3⟩
        ⟨some [0], 1, 1⟩ = ⟨some [589824], 1, 1⟩ := by
  constructor
  · intro I K O ind kd od hI hK hO hkr1 hkc1 hkr hkc hor hoc hr16 hc16 hlen
    exact fx_conv2d_cells I K O ind kd od hI hK hO hkr1 hkc1 hkr hkc hor hoc hr16 hc16 hlen
  · decide

/-- Witness instantiating C1 at a concrete call: a 2x2 input convolved
with a 1x1 kernel of 2.0. -/
theorem C1_conv2d_quantized_dot_witness :
    ∃ od2, fx_conv2d ⟨some [65536, 131072, 196608, 262144], 2, 2⟩
        ⟨some [131072], 1, 1⟩ ⟨some [0, 0, 0, 0], 2, 2⟩ =
        { FxMatrix.mk (some [0, 0, 0, 0]) 2 2 with data := some od2 } ∧
      od2.length = ([0, 0, 0, 0] : List Int).length ∧
      ∀ r c, r < 2 → c < 2 →
        od2.getD (r * 2 + c) 0 =
          wrap32 (sar16 (wrap64 (convDot [65536, 131072, 196608, 262144] [131072] 2 1 1 r c + 32768))) :=
  C1_conv2d_quantized_dot.1 ⟨some [65536, 131072, 196608, 262144], 2, 2⟩
    ⟨some [131072], 1, 1⟩ ⟨some [0, 0, 0, 0], 2, 2⟩ _ _ _ rfl rfl rfl
    (by decide) (by decide) (by decide) (by decide) (by decide) (by decide)
    (by decide) (by decide) (by decide)

/-- C9: convolution with the 1x1 unit kernel (single element FIXED_ONE =
65536) copies the input element-for-element, because the quantization
`((int64)x * 65536 + 32768) >> 16` is the identity on 32-bit values. -/
theorem C9_conv2d_unit_kernel_identity :
    (∀ (I O : FxMatrix) (ind od : List Int),
      I.data = some ind → O.data = some od →
      1 ≤ I.rows → 1 ≤ I.cols → I.rows ≤ 65535 → I.cols ≤ 65535 →
      O.rows = I.rows → O.cols = I.cols →
      I.rows * I.cols ≤ ind.length → I.rows * I.cols ≤ od.length →
      (∀ x ∈ ind, -2147483648 ≤ x ∧ x < 2147483648) →
      ∃ od2, fx_conv2d I ⟨some [65536], 1, 1⟩ O = { O with data := some od2 } ∧
        od2.length = od.length ∧
        ∀ r c, r < I.rows → c < I.cols →
          od2.getD (r * I.cols + c) 0 = ind.getD (r * I.cols + c) 0) ∧
    (∀ x : Int, -2147483648 ≤ x → x < 2147483648 →
      wrap32 (sar16 (x * 65536 + 32768)) = x) := by
  constructor
  · intro I O ind od hI hO hr1 hc1 hr16 hc16 hOr hOc hindlen hodlen hrange
    have hor : O.rows = I.rows - 1 + 1 := by omega
    have hoc : O.cols = I.cols - 1 + 1 := by omega
    have hrw : O.rows * O.cols ≤ od.length := by
      have h1 : O.rows = I.rows := by omega
      have h2 : O.cols = I.cols := by omega
      rw [h1, h2]; exact hodlen
    obtain ⟨od2, heq, hlen, hcells⟩ :=
      fx_conv2d_cells I ⟨some [65536], 1, 1⟩ O ind [65536] od hI rfl hO
        (by decide) (by decide) hr1 hc1 hor hoc hr16 hc16 hrw
    refine ⟨od2, heq, hlen, fun r c hr hc => ?_⟩
    have hdots : convDot ind [65536] I.cols 1 1 r c =
        ind.getD (r * I.cols + c) 0 * 65536 := by
      unfold convDot
      simp [List.range_succ]
    have hcells3 : od2.getD (r * I.cols + c) 0 =
        wrap32 (sar16 (wrap64 (convDot ind [65536] I.cols 1 1 r c + 32768))) := by
      simpa [hOc] using hcells r c (by omega) (by omega)
    rw [hcells3, hdots]
    have hidx : r * I.cols + c < ind.length :=
      Nat.lt_of_lt_of_le (cell_offset_lt r c I.rows I.cols hr hc) hindlen
    obtain ⟨hlo, hhi⟩ := hrange (ind.getD (r * I.cols + c) 0) (getD_mem ind _ hidx)
    have h64 : wrap64 (ind.getD (r * I.cols + c) 0 * 65536 + 32768) =
        ind.getD (r * I.cols + c) 0 * 65536 + 32768 :=
      wrap64_id _ (by omega) (by omega)
    rw [h64, sar16_mul_exact, wrap32_id _ hlo hhi]
  · intro x hlo hhi
    rw [sar16_mul_exact, wrap32_id x hlo hhi]

/-- Witness instantiating C9 at a concrete call: unit kernel over a 2x2
input containing positive and negative values. -/
theorem C9_conv2d_unit_kernel_identity_witness :
    ∃ od2, fx_conv2d ⟨some [131072, -98304, 7, -1], 2, 2⟩ ⟨some [65536], 1, 1⟩
        ⟨some [0, 0, 0, 0], 2, 2⟩ =
        { FxMatrix.mk (some [0, 0, 0, 0]) 2 2 with data := some od2 } ∧
      od2.length = ([0, 0, 0, 0] : List Int).length ∧
      ∀ r c, r < 2 → c < 2 →
        od2.getD (r * 2 + c) 0 = ([131072, -98304, 7, -1] : List Int).getD (r * 2 + c) 0 :=
  C9_conv2d_unit_kernel_identity.1 ⟨some [131072, -98304, 7, -1], 2, 2⟩
    ⟨some [0, 0, 0, 0], 2, 2⟩ _ _ rfl rfl (by decide) (by decide) (by decide)
    (by decide) (by decide) (by decide) (by decide) (by decide) (by decide)

/-- C3: a violated precondition — a NULL matrix pointer, a NULL data
buffer, a kernel larger than the input in either dimension, or an
output shape different from (in_rows - k_rows + 1) x (in_cols - k_cols
+ 1) — makes `fx_conv2d` return before any write: the output matrix is
exactly as it was (the model has no other mutable state). -/
theorem C3_conv2d_silent_noop :
    (∀ I K O : FxMatrix,
      (I.data = none ∨ K.data = none ∨ O.data = none) →
      fx_conv2d I K O = O) ∧
    (∀ I K O : FxMatrix,
      I.rows ≤ 65535 → I.cols ≤ 65535 → 1 ≤ K.rows → 1 ≤ K.cols →
      (I.rows < K.rows ∨ I.cols < K.cols ∨
        O.rows ≠ I.rows - K.rows + 1 ∨ O.cols ≠ I.cols - K.cols + 1) →
      fx_conv2d I K O = O) ∧
    (∀ i k o : Option FxMatrix, (i = none ∨ k = none ∨ o = none) →
      conv2dCall i k o = o) := by
  refine ⟨?_, ?_, ?_⟩
  · intro I K O hviol
    unfold fx_conv2d
    cases hI : I.data with
    | none => rfl
    | some ind =>
        cases hK : K.data with
        | none => rfl
        | some kd =>
            cases hO : O.data with
            | none => rfl
            | some od =>
                rcases hviol with h | h | h
                · rw [hI] at h; exact absurd h (by simp)
                · rw [hK] at h; exact absurd h (by simp)
                · rw [hO] at h; exact absurd h (by simp)
  · intro I K O hr16 hc16 hkr1 hkc1 hviol
    unfold fx_conv2d
    cases hI : I.data with
    | none => rfl
    | some ind =>
        cases hK : K.data with
        | none => rfl
        | some kd =>
            cases hO : O.data with
            | none => rfl
            | some od =>
                simp only []
                by_cases hbig : K.rows > I.rows ∨ K.cols > I.cols
                · rw [if_pos hbig]
                · rw [if_neg hbig, if_pos]
                  rcases hviol with h | h | h | h
                  · omega
                  · omega
                  · exact Or.inl (by omega)
                  · exact Or.inr (by omega)
  · intro i k o hnull
    rcases hnull with h | h | h
    · subst h; cases k <;> cases o <;> rfl
    · subst h; cases i <;> cases o <;> rfl
    · subst h; cases i <;> cases k <;> rfl

/-- Witness instantiating C3: a NULL input data buffer and a mismatched
output shape each leave the output untouched, and a NULL input pointer
leaves the out-pointer target untouched. -/
theorem C3_conv2d_silent_noop_witness :
    fx_conv2d ⟨none, 3, 3⟩ ⟨some [65536], 1, 1⟩ ⟨some [0, 0], 1, 2⟩ = ⟨some [0, 0], 1, 2⟩ ∧
    fx_conv2d ⟨some [1, 2, 3, 4], 2, 2⟩ ⟨some [65536], 1, 1⟩ ⟨some [9], 1, 1⟩ = ⟨some [9], 1, 1⟩ ∧
    conv2dCall none (some ⟨some [65536], 1, 1⟩) (some ⟨some [5], 1, 1⟩) = some ⟨some [5], 1, 1⟩ :=
  ⟨C3_conv2d_silent_noop.1 _ _ _ (Or.inl rfl),
   C3_conv2d_silent_noop.2.1 ⟨some [1, 2, 3, 4], 2, 2⟩ ⟨some [65536], 1, 1⟩
     ⟨some [9], 1, 1⟩ (by decide) (by decide) (by decide) (by decide)
     (by right; right; left; decide),
   C3_conv2d_silent_noop.2.2 none _ _ (Or.inl rfl)⟩

/-- C4: `fx_relu` replaces, in place, every negative element of the
rows*cols region with fixed-point zero and keeps every non-negative
element identical. -/
theorem C4_relu_elementwise :
    ∀ (m : FxMatrix) (buf : List Int), m.data = some buf →
      ∃ buf2, (fx_relu m).data = some buf2 ∧ buf2.length = buf.length ∧
        ∀ i, i < m.rows * m.cols → i < buf.length →
          buf2.getD i 0 = if buf.getD i 0 < 0 then 0 else buf.getD i 0 := by
  intro m buf hbuf
  refine ⟨applyFirst reluStep (m.rows * m.cols) buf, ?_, applyFirst_length _ _ _, ?_⟩
  · unfold fx_relu
    rw [hbuf]
  · intro i hi hl
    rw [applyFirst_getD_lt reluStep _ buf i hi hl]
    rfl

/-- Witness instantiating C4 at a concrete matrix with mixed signs. -/
theorem C4_relu_elementwise_witness :
    ∃ buf2, (fx_relu ⟨some [65536, -3, 0, -65536], 2, 2⟩).data = some buf2 ∧
      buf2.length = ([65536, -3, 0, -65536] : List Int).length ∧
      ∀ i, i < 2 * 2 → i < ([65536, -3, 0, -65536] : List Int).length →
        buf2.getD i 0 = if ([65536, -3, 0, -65536] : List Int).getD i 0 < 0 then 0
          else ([65536, -3, 0, -65536] : List Int).getD i 0 :=
  C4_relu_elementwise ⟨some [65536, -3, 0, -65536], 2, 2⟩ _ rfl

/-- C6: `fx_relu` and `fx_leaky_relu` keep the buffer identity and the
shape: the row and column counts are unchanged, the data reference stays
present (same buffer length, no reallocation), and every slot at offset
rows*cols or beyond keeps its value. -/
theorem C6_activations_frame :
    ∀ (m : FxMatrix) (alpha : Int),
      ((fx_relu m).rows = m.rows ∧ (fx_relu m).cols = m.cols ∧
        (∀ buf, m.data = some buf →
          ∃ buf2, (fx_relu m).data = some buf2 ∧ buf2.length = buf.length ∧
            ∀ i, m.rows * m.cols ≤ i → buf2.getD i 0 = buf.getD i 0)) ∧
      ((fx_leaky_relu m alpha).rows = m.rows ∧ (fx_leaky_relu m alpha).cols = m.cols ∧
        (∀ buf, m.data = some buf →
          ∃ buf2, (fx_leaky_relu m alpha).data = some buf2 ∧ buf2.length = buf.length ∧
            ∀ i, m.rows * m.cols ≤ i → buf2.getD i 0 = buf.getD i 0)) := by
  intro m alpha
  constructor
  · refine ⟨?_, ?_, ?_⟩
    · unfold fx_relu; cases m.data <;> rfl
    · unfold fx_relu; cases m.data <;> rfl
    · intro buf hbuf
      refine ⟨applyFirst reluStep (m.rows * m.cols) buf, ?_,
        applyFirst_length _ _ _, fun i hi => applyFirst_getD_ge _ _ _ _ hi⟩
      unfold fx_relu
      rw [hbuf]
  · refine ⟨?_, ?_, ?_⟩
    · unfold fx_leaky_relu; cases m.data <;> rfl
    · unfold fx_leaky_relu; cases m.data <;> rfl
    · intro buf hbuf
      refine ⟨applyFirst (fun x => if x < 0 then fixed_mul x alpha else x)
        (m.rows * m.cols) buf, ?_,
        applyFirst_length _ _ _, fun i hi => applyFirst_getD_ge _ _ _ _ hi⟩
      unfold fx_leaky_relu
      rw [hbuf]

/-- Witness instantiating C6 at a concrete matrix and alpha = 0.01. -/
theorem C6_activations_frame_witness :
    ∃ buf2, (fx_relu ⟨some [-65536, 3, 4, 5, 6], 2, 2⟩).data = some buf2 ∧
      buf2.length = ([-65536, 3, 4, 5, 6] : List Int).length ∧
      ∀ i, 2 * 2 ≤ i → buf2.getD i 0 = ([-65536, 3, 4, 5, 6] : List Int).getD i 0 :=
  ((C6_activations_frame ⟨some [-65536, 3, 4, 5, 6], 2, 2⟩ 655).1.2.2) _ rfl

/-- When the four (truncated) window offsets are inside the buffer, the
guarded window read succeeds with the pure window value. -/
theorem poolCellRead_eq (ind : List Int) (icols i j : Nat)
    (h1 : (i * icols) % 65536 + j + 1 < ind.length)
    (h2 : ((i + 1) * icols) % 65536 + j + 1 < ind.length) :
    poolCellRead ind icols i j = some (poolCellVal ind icols i j) := by
  unfold poolCellRead poolCellVal
  simp only []
  rw [List.getElem?_eq_getElem (by omega), List.getElem?_eq_getElem (by omega),
    List.getElem?_eq_getElem (by omega), List.getElem?_eq_getElem (by omega)]
  simp only []
  rw [List.getD_eq_getElem ind 0 (by omega : (i * icols) % 65536 + j < ind.length),
    List.getD_eq_getElem ind 0 (by omega : (i * icols) % 65536 + j + 1 < ind.length),
    List.getD_eq_getElem ind 0 (by omega : ((i + 1) * icols) % 65536 + j < ind.length),
    List.getD_eq_getElem ind 0 (by omega : ((i + 1) * icols) % 65536 + j + 1 < ind.length)]

/-- A monadic fold in `Option` whose every step succeeds and preserves
the buffer length computes the corresponding pure fold. -/
theorem foldlM_eq_foldl_of_some (l : List Nat) (f : List Int → Nat → Option (List Int))
    (g : List Int → Nat → List Int) (L : Nat)
    (hstep : ∀ od x, od.length = L → x ∈ l → f od x = some (g od x) ∧ (g od x).length = L) :
    ∀ od, od.length = L → l.foldlM f od = some (l.foldl g od) := by
  induction l with
  | nil => intro od hod; rfl
  | cons x xs ih =>
      intro od hod
      obtain ⟨hx, hxlen⟩ := hstep od x hod (List.mem_cons_self x xs)
      rw [List.foldlM_cons, hx]
      show xs.foldlM f (g od x) = some ((x :: xs).foldl g od)
      rw [List.foldl_cons]
      exact ih (fun od2 y hod2 hy => hstep od2 y hod2 (List.mem_cons_of_mem x hy))
        (g od x) hxlen

/-- Shared characterization of a successful `fx_maxpool_2x2` call: with
non-NULL adequately sized buffers, even input dimensions and halved
output dimensions, the call succeeds and produces exactly the grid of
(truncated-offset) window values. -/
theorem fx_maxpool_2x2_spec (inm out : FxMatrix) (ind od : List Int)
    (hin : inm.data = some ind) (hout : out.data = some od)
    (her : inm.rows % 2 = 0) (hec : inm.cols % 2 = 0)
    (hor : out.rows = inm.rows / 2) (hoc : out.cols = inm.cols / 2)
    (hindlen : inm.rows * inm.cols ≤ ind.length)
    (hodlen : out.rows * out.cols ≤ od.length) :
    fx_maxpool_2x2 inm out =
      some ⟨some (writeGrid (fun wr wc => poolCellVal ind inm.cols (2 * wr) (2 * wc))
        (inm.rows / 2) (inm.cols / 2) out.cols od), out.rows, out.cols⟩ := by
  unfold fx_maxpool_2x2
  rw [hin, hout]
  simp only []
  rw [if_neg (by omega), if_neg (by
    push_neg
    exact ⟨hor, hoc⟩)]
  have hstepOuter : ∀ (od2 : List Int) (wr : Nat), od2.length = od.length →
      wr ∈ List.range (inm.rows / 2) →
      ((List.range (inm.cols / 2)).foldlM (fun od3 wc =>
          match poolCellRead ind inm.cols (2 * wr) (2 * wc) with
          | some v => setGuard od3 (wr * out.cols + wc) v
          | none => none) od2 =
        some ((List.range (inm.cols / 2)).foldl (fun od3 wc =>
          od3.set (wr * out.cols + wc) (poolCellVal ind inm.cols (2 * wr) (2 * wc))) od2)) ∧
      (((List.range (inm.cols / 2)).foldl (fun od3 wc =>
          od3.set (wr * out.cols + wc) (poolCellVal ind inm.cols (2 * wr) (2 * wc))) od2).length
        = od.length) := by
    intro od2 wr hod2 hwr
    have hwr2 : wr < inm.rows / 2 := List.mem_range.mp hwr
    constructor
    · refine foldlM_eq_foldl_of_some (List.range (inm.cols / 2)) _ _ od.length
        (fun od3 wc hod3 hwc => ?_) od2 hod2
      have hwc2 : wc < inm.cols / 2 := List.mem_range.mp hwc
      have e1 : 2 * wr + 2 ≤ inm.rows := by omega
      have e2 : 2 * wc + 2 ≤ inm.cols := by omega
      have h3 : (2 * wr + 1) * inm.cols ≤ inm.rows * inm.cols :=
        Nat.mul_le_mul_right _ (by omega)
      have h4 : (2 * wr + 2) * inm.cols ≤ inm.rows * inm.cols :=
        Nat.mul_le_mul_right _ (by omega)
      have h5 : (2 * wr + 1) * inm.cols = 2 * wr * inm.cols + inm.cols := by ring
      have h6 : (2 * wr + 2) * inm.cols = (2 * wr + 1) * inm.cols + inm.cols := by ring
      have hm1 := Nat.mod_le (2 * wr * inm.cols) 65536
      have hm2 := Nat.mod_le ((2 * wr + 1) * inm.cols) 65536
      have hb1 : (2 * wr * inm.cols) % 65536 + 2 * wc + 1 < ind.length := by omega
      have hb2 : ((2 * wr + 1) * inm.cols) % 65536 + 2 * wc + 1 < ind.length := by omega
      rw [poolCellRead_eq ind inm.cols (2 * wr) (2 * wc) hb1 (by
        have : 2 * wr + 1 = 2 * wr + 1 := rfl
        omega)]
      simp only []
      have hoff : wr * out.cols + wc < od3.length := by
        have h7 : wr * out.cols + wc < out.rows * out.cols := by
          refine cell_offset_lt wr wc out.rows out.cols (by omega) (by omega)
        omega
      unfold setGuard
      rw [if_pos hoff]
      exact ⟨rfl, by rw [List.length_set]; exact hod3⟩
    · have := writeRow_length (fun wc => poolCellVal ind inm.cols (2 * wr) (2 * wc))
        (inm.cols / 2) (wr * out.cols) od2
      rw [show writeRow (fun wc => poolCellVal ind inm.cols (2 * wr) (2 * wc))
        (inm.cols / 2) (wr * out.cols) od2 = (List.range (inm.cols / 2)).foldl (fun od3 wc =>
          od3.set (wr * out.cols + wc) (poolCellVal ind inm.cols (2 * wr) (2 * wc))) od2
        from rfl] at this
      rw [this]
      exact hod2
  have houter := foldlM_eq_foldl_of_some (List.range (inm.rows / 2)) _ _ od.length
    hstepOuter od rfl
  rw [houter]
  rfl

theorem maxSeq_eq_max (a b c d : Int) :
    maxSeq a b c d = max (max (max a b) c) d := by
  unfold maxSeq
  simp only [max_def]
  split_ifs <;> omega

theorem maxSeq_mem (a b c d : Int) :
    maxSeq a b c d = a ∨ maxSeq a b c d = b ∨ maxSeq a b c d = c ∨ maxSeq a b c d = d := by
  unfold maxSeq
  simp only []
  split_ifs <;> simp

theorem reluStep_eq_max (x : Int) : reluStep x = max 0 x := by
  unfold reluStep
  simp only [max_def]
  split_ifs <;> omega

/-- ReLU distributes over the sequential four-way max. -/
theorem reluStep_maxSeq (a b c d : Int) :
    maxSeq (reluStep a) (reluStep b) (reluStep c) (reluStep d) =
      reluStep (maxSeq a b c d) := by
  simp only [maxSeq_eq_max, reluStep_eq_max]
  rw [sup_sup_distrib_left 0 (max (max a b) c) d,
    sup_sup_distrib_left 0 (max a b) c,
    sup_sup_distrib_left 0 a b]

/-- The four truncated window offsets stay below the input region. -/
theorem pool_offsets_bound (rows cols wr wc : Nat) (her : rows % 2 = 0)
    (hec : cols % 2 = 0) (hwr : wr < rows / 2) (hwc : wc < cols / 2) :
    (2 * wr * cols) % 65536 + 2 * wc + 1 < rows * cols ∧
    ((2 * wr + 1) * cols) % 65536 + 2 * wc + 1 < rows * cols := by
  have e1 : 2 * wr + 2 ≤ rows := by omega
  have e2 : 2 * wc + 2 ≤ cols := by omega
  have h3 : (2 * wr + 1) * cols ≤ rows * cols := Nat.mul_le_mul_right _ (by omega)
  have h4 : (2 * wr + 2) * cols ≤ rows * cols := Nat.mul_le_mul_right _ (by omega)
  have h5 : (2 * wr + 1) * cols = 2 * wr * cols + cols := by ring
  have h6 : (2 * wr + 2) * cols = (2 * wr + 1) * cols + cols := by ring
  have hm1 := Nat.mod_le (2 * wr * cols) 65536
  have hm2 := Nat.mod_le ((2 * wr + 1) * cols) 65536
  omega

/-- C8: under the exact-size precondition (even positive dimensions,
input buffer of exactly rows*cols cells, output buffer of exactly
(rows/2)*(cols/2) cells) every guarded access of `fx_maxpool_2x2` is in
bounds: the call returns `some`, never the out-of-bounds `none`. -/
theorem C8_maxpool_memory_safety :
    ∀ (inm out : FxMatrix) (ind od : List Int),
      inm.data = some ind → out.data = some od →
      0 < inm.rows → 0 < inm.cols →
      inm.rows ≤ 65535 → inm.cols ≤ 65535 →
      inm.rows % 2 = 0 → inm.cols % 2 = 0 →
      out.rows = inm.rows / 2 → out.cols = inm.cols / 2 →
      ind.length = inm.rows * inm.cols →
      od.length = out.rows * out.cols →
      (fx_maxpool_2x2 inm out).isSome := by
  intro inm out ind od hin hout hr0 hc0 hb16r hb16c her hec hor hoc hil hol
  rw [fx_maxpool_2x2_spec inm out ind od hin hout her hec hor hoc (by omega) (by omega)]
  rfl

/-- Witness instantiating C8 at a concrete 2x2 call. -/
theorem C8_maxpool_memory_safety_witness :
    (fx_maxpool_2x2 ⟨some [1, 2, 3, 4], 2, 2⟩ ⟨some [0], 1, 1⟩).isSome :=
  C8_maxpool_memory_safety ⟨some [1, 2, 3, 4], 2, 2⟩ ⟨some [0], 1, 1⟩ _ _ rfl rfl
    (by decide) (by decide) (by decide) (by decide) (by decide) (by decide)
    (by decide) (by decide) (by decide) (by decide)

/-- C5: every value written by `fx_maxpool_2x2` is one of the input
cells, hence lies within [min(input), max(input)]; and a uniform input
pools to that same value everywhere. -/
theorem C5_pool_range_law :
    ∀ (inm out : FxMatrix) (ind od : List Int),
      inm.data = some ind → out.data = some od →
      inm.rows ≤ 65535 → inm.cols ≤ 65535 →
      inm.rows % 2 = 0 → inm.cols % 2 = 0 →
      out.rows = inm.rows / 2 → out.cols = inm.cols / 2 →
      ind.length = inm.rows * inm.cols →
      od.length = out.rows * out.cols →
      ∃ od2, fx_maxpool_2x2 inm out = some ⟨some od2, out.rows, out.cols⟩ ∧
        ∀ wr wc, wr < out.rows → wc < out.cols →
          (od2.getD (wr * out.cols + wc) 0 ∈ ind ∧
          (∀ lo, (∀ x ∈ ind, lo ≤ x) → lo ≤ od2.getD (wr * out.cols + wc) 0) ∧
          (∀ hi, (∀ x ∈ ind, x ≤ hi) → od2.getD (wr * out.cols + wc) 0 ≤ hi) ∧
          (∀ v : Int, (∀ x ∈ ind, x = v) → od2.getD (wr * out.cols + wc) 0 = v)) := by
  intro inm out ind od hin hout hb16r hb16c her hec hor hoc hil hol
  refine ⟨writeGrid (fun wr wc => poolCellVal ind inm.cols (2 * wr) (2 * wc))
    (inm.rows / 2) (inm.cols / 2) out.cols od,
    fx_maxpool_2x2_spec inm out ind od hin hout her hec hor hoc (by omega) (by omega),
    fun wr wc hwr hwc => ?_⟩
  have hcell : (writeGrid (fun wr wc => poolCellVal ind inm.cols (2 * wr) (2 * wc))
      (inm.rows / 2) (inm.cols / 2) out.cols od).getD (wr * out.cols + wc) 0 =
      poolCellVal ind inm.cols (2 * wr) (2 * wc) := by
    refine writeGrid_getD _ _ _ _ _ _ _ (by omega) (by omega) (by omega) ?_
    have := cell_offset_lt wr wc out.rows out.cols hwr hwc
    omega
  rw [hcell]
  obtain ⟨hb1, hb2⟩ := pool_offsets_bound inm.rows inm.cols wr wc her hec
    (by omega) (by omega)
  have hmem : poolCellVal ind inm.cols (2 * wr) (2 * wc) ∈ ind := by
    unfold poolCellVal
    simp only []
    rcases maxSeq_mem (ind.getD ((2 * wr * inm.cols) % 65536 + 2 * wc) 0)
        (ind.getD ((2 * wr * inm.cols) % 65536 + 2 * wc + 1) 0)
        (ind.getD (((2 * wr + 1) * inm.cols) % 65536 + 2 * wc) 0)
        (ind.getD (((2 * wr + 1) * inm.cols) % 65536 + 2 * wc + 1) 0) with
      h | h | h | h <;> rw [h] <;> exact getD_mem ind _ (by omega)
  exact ⟨hmem, fun lo hlo => hlo _ hmem, fun hi hhi => hhi _ hmem,
    fun v hv => hv _ hmem⟩

/-- Witness instantiating C5 at a concrete 4x4 input. -/
theorem C5_pool_range_law_witness :
    ∃ od2, fx_maxpool_2x2 ⟨some [1, 2, 3, 4, 5, 6, 7, 8, 9, 10, 11, 12, 13, 14, 15, 16], 4, 4⟩
        ⟨some [0, 0, 0, 0], 2, 2⟩ = some ⟨some od2, 2, 2⟩ ∧
      ∀ wr wc, wr < 2 → wc < 2 →
        (od2.getD (wr * 2 + wc) 0 ∈ ([1, 2, 3, 4, 5, 6, 7, 8, 9, 10, 11, 12, 13, 14, 15, 16] : List Int) ∧
        (∀ lo, (∀ x ∈ ([1, 2, 3, 4, 5, 6, 7, 8, 9, 10, 11, 12, 13, 14, 15, 16] : List Int), lo ≤ x) →
          lo ≤ od2.getD (wr * 2 + wc) 0) ∧
        (∀ hi, (∀ x ∈ ([1, 2, 3, 4, 5, 6, 7, 8, 9, 10, 11, 12, 13, 14, 15, 16] : List Int), x ≤ hi) →
          od2.getD (wr * 2 + wc) 0 ≤ hi) ∧
        (∀ v : Int, (∀ x ∈ ([1, 2, 3, 4, 5, 6, 7, 8, 9, 10, 11, 12, 13, 14, 15, 16] : List Int), x = v) →
          od2.getD (wr * 2 + wc) 0 = v)) :=
  C5_pool_range_law ⟨some [1, 2, 3, 4, 5, 6, 7, 8, 9, 10, 11, 12, 13, 14, 15, 16], 4, 4⟩
    ⟨some [0, 0, 0, 0], 2, 2⟩ _ _ rfl rfl (by decide) (by decide) (by decide) (by decide)
    (by decide) (by decide) (by decide) (by decide)

/-- C2 failing run: on a 65534x2 input whose first two rows are 0 and
all later rows are 7, the output cell (16384, 0) covers the input
window at rows 32768 and 32769 (true offsets 65536..65539, all equal
to 7), but `fx_maxpool_2x2` stores 0 there: the row offsets
`i * in->cols` = 65536 and 65538 truncate to 0 and 2 in their
`uint16_t` locals, so the window is read from rows 0 and 1. -/
theorem C2_maxpool_uint16_offset_truncation :
    ∃ od2, fx_maxpool_2x2
        ⟨some (List.replicate 4 0 ++ List.replicate 131064 7), 65534, 2⟩
        ⟨some (List.replicate 32767 0), 32767, 1⟩ = some ⟨some od2, 32767, 1⟩ ∧
      od2.getD 16384 0 = 0 ∧
      maxSeq ((List.replicate 4 (0:Int) ++ List.replicate 131064 7).getD 65536 0)
        ((List.replicate 4 (0:Int) ++ List.replicate 131064 7).getD 65537 0)
        ((List.replicate 4 (0:Int) ++ List.replicate 131064 7).getD 65538 0)
        ((List.replicate 4 (0:Int) ++ List.replicate 131064 7).getD 65539 0) = 7 := by
  have hlenIn : (List.replicate 4 (0:Int) ++ List.replicate 131064 7).length = 131068 := by
    rw [List.length_append, List.length_replicate, List.length_replicate]
  have hlenOut : (List.replicate 32767 (0:Int)).length = 32767 :=
    List.length_replicate 32767 0
  have heq := fx_maxpool_2x2_spec
    ⟨some (List.replicate 4 0 ++ List.replicate 131064 7), 65534, 2⟩
    ⟨some (List.replicate 32767 0), 32767, 1⟩
    (List.replicate 4 0 ++ List.replicate 131064 7) (List.replicate 32767 0)
    rfl rfl (by norm_num) (by norm_num) (by norm_num) (by norm_num)
    (by rw [hlenIn]; norm_num) (by rw [hlenOut]; norm_num)
  refine ⟨_, heq, ?_, ?_⟩
  · have hcell := writeGrid_getD
      (fun wr wc => poolCellVal (List.replicate 4 0 ++ List.replicate 131064 7) 2
        (2 * wr) (2 * wc)) (65534 / 2) (2 / 2) 1 (List.replicate 32767 0)
      16384 0 (by norm_num) (by norm_num) (by norm_num)
      (by rw [hlenOut]; norm_num)
    have h1640 : 16384 * 1 + 0 = 16384 := by norm_num
    rw [h1640] at hcell
    rw [hcell]
    decide
  · have hget : ∀ k, 4 ≤ k → k < 131068 →
        (List.replicate 4 (0:Int) ++ List.replicate 131064 7).getD k 0 = 7 := by
      intro k h1 h2
      rw [List.getD_eq_getElem?_getD,
        List.getElem?_append_right (by simpa using h1), List.getElem?_replicate,
        if_pos (by simp only [List.length_replicate]; omega)]
      rfl
    rw [hget 65536 (by norm_num) (by norm_num), hget 65537 (by norm_num) (by norm_num),
      hget 65538 (by norm_num) (by norm_num), hget 65539 (by norm_num) (by norm_num)]
    decide

/-- Unfolding `fx_relu` on a bound buffer, as an explicit structure literal. -/
theorem fx_relu_eq_mk (m : FxMatrix) (buf : List Int) (h : m.data = some buf) :
    fx_relu m = ⟨some (applyFirst reluStep (m.rows * m.cols) buf), m.rows, m.cols⟩ := by
  unfold fx_relu
  rw [h]

/-- Two integer lists agreeing at every in-bounds offset are equal. -/
theorem list_eq_of_getD (l1 l2 : List Int) (hlen : l1.length = l2.length)
    (h : ∀ k, k < l1.length → l1.getD k 0 = l2.getD k 0) : l1 = l2 := by
  refine List.ext_get hlen (fun i h1 h2 => ?_)
  have h3 := h i h1
  rwa [List.getD_eq_getElem l1 0 h1, List.getD_eq_getElem l2 0 h2] at h3

/-- C10: applying `fx_relu` to the input and then pooling gives the same
result as pooling first and applying `fx_relu` to the pooled output
(ReLU commutes with 2x2 max pooling). -/
theorem C10_relu_maxpool_commute :
    ∀ (inm out : FxMatrix) (ind od : List Int),
      inm.data = some ind → out.data = some od →
      inm.rows ≤ 65535 → inm.cols ≤ 65535 →
      inm.rows % 2 = 0 → inm.cols % 2 = 0 →
      out.rows = inm.rows / 2 → out.cols = inm.cols / 2 →
      inm.rows * inm.cols ≤ ind.length → out.rows * out.cols ≤ od.length →
      fx_maxpool_2x2 (fx_relu inm) out = Option.map fx_relu (fx_maxpool_2x2 inm out) := by
  intro inm out ind od hin hout hb16r hb16c her hec hor hoc hil hol
  rw [fx_relu_eq_mk inm ind hin]
  have hL := fx_maxpool_2x2_spec ⟨some (applyFirst reluStep (inm.rows * inm.cols) ind),
      inm.rows, inm.cols⟩ out (applyFirst reluStep (inm.rows * inm.cols) ind) od
    rfl hout her hec hor hoc (by rw [applyFirst_length]; exact hil) hol
  have hR := fx_maxpool_2x2_spec inm out ind od hin hout her hec hor hoc hil hol
  rw [hL, hR]
  show _ = some (fx_relu _)
  rw [fx_relu_eq_mk ⟨some (writeGrid (fun wr wc => poolCellVal ind inm.cols (2 * wr) (2 * wc))
    (inm.rows / 2) (inm.cols / 2) out.cols od), out.rows, out.cols⟩ _ rfl]
  simp only []
  refine congrArg some ?_
  refine congrArg (fun l => (⟨some l, out.rows, out.cols⟩ : FxMatrix)) ?_
  refine list_eq_of_getD _ _ (by
    rw [writeGrid_length, applyFirst_length, writeGrid_length]) (fun k hk => ?_)
  rw [writeGrid_length] at hk
  rcases Nat.lt_or_ge k (out.rows * out.cols) with hk2 | hk2
  · have hc0 : 0 < out.cols := by
      rcases Nat.eq_zero_or_pos out.cols with h0 | h0
      · rw [h0, Nat.mul_zero] at hk2; omega
      · exact h0
    have hwr : k / out.cols < out.rows := (Nat.div_lt_iff_lt_mul hc0).mpr hk2
    have hwc : k % out.cols < out.cols := Nat.mod_lt k hc0
    have hkeq : k = (k / out.cols) * out.cols + k % out.cols := by
      have h5 := Nat.div_add_mod k out.cols
      rw [Nat.mul_comm] at h5
      omega
    rw [hkeq]
    rw [writeGrid_getD _ _ _ _ _ _ _ (by omega) (by omega) (by omega) (by
      rw [hkeq] at hk; omega)]
    rw [applyFirst_getD_lt reluStep _ _ _ (by omega) (by
      rw [writeGrid_length]; rw [hkeq] at hk; omega)]
    rw [writeGrid_getD _ _ _ _ _ _ _ (by omega) (by omega) (by omega) (by
      rw [hkeq] at hk; omega)]
    obtain ⟨hb1, hb2⟩ := pool_offsets_bound inm.rows inm.cols (k / out.cols) (k % out.cols)
      her hec (by omega) (by omega)
    unfold poolCellVal
    simp only []
    rw [applyFirst_getD_lt reluStep _ ind _ (by omega) (by omega),
      applyFirst_getD_lt reluStep _ ind _ (by omega) (by omega),
      applyFirst_getD_lt reluStep _ ind _ (by omega) (by omega),
      applyFirst_getD_lt reluStep _ ind _ (by omega) (by omega)]
    exact reluStep_maxSeq _ _ _ _
  · have hnr : (inm.rows / 2) * out.cols ≤ k := by
      have : inm.rows / 2 = out.rows := by omega
      rw [this]; omega
    rw [writeGrid_getD_ge _ _ _ _ _ _ (by omega) hnr]
    rw [applyFirst_getD_ge reluStep _ _ _ hk2]
    rw [writeGrid_getD_ge _ _ _ _ _ _ (by omega) hnr]

/-- Witness instantiating C10 at a concrete 2x2 input with mixed
signs. -/
theorem C10_relu_maxpool_commute_witness :
    fx_maxpool_2x2 (fx_relu ⟨some [-65536, 3, -7, -9], 2, 2⟩) ⟨some [0], 1, 1⟩ =
      Option.map fx_relu (fx_maxpool_2x2 ⟨some [-65536, 3, -7, -9], 2, 2⟩ ⟨some [0], 1, 1⟩) :=
  C10_relu_maxpool_commute ⟨some [-65536, 3, -7, -9], 2, 2⟩ ⟨some [0], 1, 1⟩ _ _ rfl rfl
    (by decide) (by decide) (by decide) (by decide) (by decide) (by decide)
    (by decide) (by decide)

theorem getD_set_ne2 {α : Type} (l : List α) (d : α) (i j : Nat) (v : α) (h : i ≠ j) :
    (l.set i v).getD j d = l.getD j d := by
  induction l generalizing i j with
  | nil => cases i <;> rfl
  | cons x xs ih =>
      cases i with
      | zero =>
          cases j with
          | zero => exact absurd rfl h
          | succ j => rfl
      | succ i =>
          cases j with
          | zero => rfl
          | succ j =>
              simp only [List.set, List.getD, List.getElem?_cons_succ]
              exact ih i j (fun he => h (congrArg Nat.succ he))

theorem getD_set_eq2 {α : Type} (l : List α) (d : α) (i : Nat) (v : α) (h : i < l.length) :
    (l.set i v).getD i d = v := by
  induction l generalizing i with
  | nil => simp at h
  | cons x xs ih =>
      cases i with
      | zero => rfl
      | succ i =>
          simp only [List.set, List.getD, List.getElem?_cons_succ]
          exact ih i (Nat.lt_of_succ_lt_succ h)

/-- The keys currently stored in occupied slots of the table. -/
def tableKeys (t : DTable) : List (List Nat) :=
  t.entries.filterMap (fun e => e.map Prod.fst)

/-- Well-formedness of a table state: the entries array realizes the
capacity, the count equals both the length of the insertion-order array
and the number of occupied slots, and every recorded insertion-order
index points at an occupied slot. -/
def DTableWF (t : DTable) : Prop :=
  t.entries.length = t.capacity ∧
  t.count = t.order.length ∧
  t.entries.countP (fun e => e.isSome) = t.count ∧
  (∀ i ∈ t.order, i < t.entries.length ∧ (t.entries.getD i none).isSome)

theorem dtableInit_wf (cap : Nat) : DTableWF (dtableInit cap) := by
  unfold DTableWF dtableInit
  refine ⟨List.length_replicate cap none, rfl, ?_, ?_⟩
  · exact List.countP_eq_zero.mpr (fun e he => by simp [List.eq_of_mem_replicate he])
  · intro i hi
    simp at hi

theorem dtableInit_keys (cap : Nat) : tableKeys (dtableInit cap) = [] := by
  rw [tableKeys, List.filterMap_eq_nil_iff]
  intro e he
  rw [List.eq_of_mem_replicate he]
  rfl

theorem dtableInit_iterate (cap : Nat) : dtableIterate (dtableInit cap) = [] := rfl

/-- An occupied slot key is among the table keys. -/
theorem mem_tableKeys_of_getD (t : DTable) (i : Nat) (k : List Nat) (v : Int)
    (hi : i < t.entries.length) (h : t.entries.getD i none = some (k, v)) :
    k ∈ tableKeys t := by
  rw [List.getD_eq_getElem?_getD, List.getElem?_eq_getElem hi] at h
  refine List.mem_filterMap.mpr ⟨t.entries[i], List.getElem_mem hi, ?_⟩
  have h2 : t.entries[i] = some (k, v) := by
    simpa using h
  rw [h2]
  rfl

/-- The linear probe sequence reaches every slot below the capacity. -/
theorem mem_probeSeq (cap h j : Nat) (hj : j < cap) : j ∈ probeSeq cap h := by
  have hc : 0 < cap := by omega
  refine List.mem_map.mpr ⟨(cap - h % cap + j) % cap,
    List.mem_range.mpr (Nat.mod_lt _ hc), ?_⟩
  have h1 : h + (cap - h % cap + j) % cap ≡ h + (cap - h % cap + j) [MOD cap] :=
    Nat.ModEq.add_left h (Nat.mod_modEq _ cap)
  have h3 : h + (cap - h % cap + j) = cap * (h / cap) + (cap + j) := by
    have h4 := Nat.div_add_mod h cap
    have h5 : h % cap < cap := Nat.mod_lt h hc
    omega
  calc (h + (cap - h % cap + j) % cap) % cap
      = (h + (cap - h % cap + j)) % cap := h1
    _ = (cap * (h / cap) + (cap + j)) % cap := by rw [h3]
    _ = (cap + j) % cap := Nat.mul_add_mod cap (h / cap) (cap + j)
    _ = j % cap := Nat.add_mod_left cap j
    _ = j := Nat.mod_eq_of_lt hj

/-- A table below capacity has an unoccupied slot. -/
theorem exists_empty_slot (t : DTable) (hwf : DTableWF t) (hlt : t.count < t.capacity) :
    ∃ j, j < t.entries.length ∧ t.entries.getD j none = none := by
  by_contra hno
  push_neg at hno
  have hall : ∀ e ∈ t.entries, e.isSome := by
    intro e he
    obtain ⟨i, hi, hie⟩ := List.mem_iff_getElem.mp he
    have h2 := hno i hi
    rw [List.getD_eq_getElem?_getD, List.getElem?_eq_getElem hi] at h2
    cases e with
    | none => exact absurd (by rw [hie]; rfl) h2
    | some x => rfl
  have hcount := List.countP_eq_length.mpr hall
  obtain ⟨hcap, hord, hocc, hslots⟩ := hwf
  have h9 : t.entries.length = t.count := by rw [← hocc, hcount]
  omega

/-- For a fresh key in a table below capacity, the probe finds an empty
slot. -/
theorem findSlot_fresh (t : DTable) (k : List Nat) (hwf : DTableWF t)
    (hlt : t.count < t.capacity) (hfresh : k ∉ tableKeys t) :
    ∃ i, findSlot t k = some i ∧ i < t.entries.length ∧
      t.entries.getD i none = none := by
  obtain ⟨j, hj, hjnone⟩ := exists_empty_slot t hwf hlt
  have hcap : 0 < t.capacity := by omega
  have hjcap : j < t.capacity := by
    obtain ⟨hc, _, _, _⟩ := hwf
    omega
  have hjstop : slotStops t k j = true := by
    unfold slotStops
    rw [hjnone]
  have hsome : (findSlot t k).isSome := by
    unfold findSlot
    exact List.find?_isSome.mpr ⟨j, mem_probeSeq t.capacity (fnv1a k) j hjcap, hjstop⟩
  obtain ⟨i, hi⟩ := Option.isSome_iff_exists.mp hsome
  have histop : slotStops t k i = true := List.find?_some hi
  have himem : i ∈ probeSeq t.capacity (fnv1a k) := List.mem_of_find?_eq_some hi
  have hicap : i < t.entries.length := by
    obtain ⟨a, _, ha⟩ := List.mem_map.mp himem
    obtain ⟨hc, _, _, _⟩ := hwf
    rw [← ha, hc]
    exact Nat.mod_lt _ hcap
  refine ⟨i, hi, hicap, ?_⟩
  unfold slotStops at histop
  cases hgd : t.entries.getD i none with
  | none => rfl
  | some e =>
      rw [hgd] at histop
      obtain ⟨k2, v2⟩ := e
      simp only [decide_eq_true_eq] at histop
      exact absurd (histop ▸ mem_tableKeys_of_getD t i k2 v2 hicap hgd) hfresh

/-- Claiming a previously empty slot raises the occupied count by one. -/
theorem countP_set_some {α : Type} (l : List (Option α)) (i : Nat) (x : α)
    (hi : i < l.length) (h : l.getD i none = none) :
    (l.set i (some x)).countP (fun e => e.isSome) =
      l.countP (fun e => e.isSome) + 1 := by
  induction l generalizing i with
  | nil => simp at hi
  | cons y ys ih =>
      cases i with
      | zero =>
          have hy : y = none := h
          rw [hy]
          simp [List.countP_cons]
      | succ i =>
          have h2 : ys.getD i none = none := h
          simp only [List.set, List.countP_cons]
          rw [ih i (Nat.lt_of_succ_lt_succ hi) h2]
          omega

/-- Explicit form of a successful insert into an empty probed slot. -/
theorem insert_fresh_eq (t : DTable) (k : List Nat) (v : Int) (i : Nat)
    (hfind : findSlot t k = some i) (hnone : t.entries.getD i none = none)
    (hne : ¬ t.count = t.capacity) :
    dtableInsert t k v =
      (⟨t.capacity, t.entries.set i (some (k, v)), t.order ++ [i], t.count + 1⟩,
        DRes.ok) := by
  unfold dtableInsert
  rw [if_neg hne, hfind]
  simp only []
  rw [hnone]

/-- A fresh-key insert below capacity preserves well-formedness, raises
the count, keeps the capacity, appends the new pair to the iteration
sequence, and adds at most the new key to the key set. -/
theorem insert_fresh_props (t : DTable) (k : List Nat) (v : Int)
    (hwf : DTableWF t) (hlt : t.count < t.capacity) (hfresh : k ∉ tableKeys t) :
    DTableWF (dtableInsert t k v).1 ∧
    (dtableInsert t k v).1.count = t.count + 1 ∧
    (dtableInsert t k v).1.capacity = t.capacity ∧
    dtableIterate (dtableInsert t k v).1 = dtableIterate t ++ [(k, v)] ∧
    (∀ k2, k2 ∈ tableKeys (dtableInsert t k v).1 → k2 ∈ tableKeys t ∨ k2 = k) := by
  obtain ⟨i, hfind, hilen, hinone⟩ := findSlot_fresh t k hwf hlt hfresh
  rw [insert_fresh_eq t k v i hfind hinone (by omega)]
  simp only []
  obtain ⟨hcap, hord, hocc, hslots⟩ := hwf
  have hne : ∀ j ∈ t.order, i ≠ j := by
    intro j hj he
    have hjsome := (hslots j hj).2
    rw [← he, hinone] at hjsome
    simp at hjsome
  refine ⟨⟨?_, ?_, ?_, ?_⟩, by trivial, by trivial, ?_, ?_⟩
  · rw [List.length_set]; exact hcap
  · rw [List.length_append, hord]; rfl
  · rw [countP_set_some t.entries i (k, v) hilen hinone, hocc]
  · intro j hj
    rcases List.mem_append.mp hj with hj2 | hj2
    · obtain ⟨hjlen, hjsome⟩ := hslots j hj2
      refine ⟨by rw [List.length_set]; exact hjlen, ?_⟩
      rw [getD_set_ne2 _ _ i j _ (hne j hj2)]
      exact hjsome
    · have hji : j = i := by simpa using hj2
      subst hji
      refine ⟨by rw [List.length_set]; exact hilen, ?_⟩
      rw [getD_set_eq2 _ _ j _ hilen]
      rfl
  · unfold dtableIterate
    simp only []
    rw [List.filterMap_append]
    have h1 : t.order.filterMap (fun j => (t.entries.set i (some (k, v))).getD j none) =
        t.order.filterMap (fun j => t.entries.getD j none) :=
      List.filterMap_congr (fun j hj => getD_set_ne2 _ _ i j _ (hne j hj))
    rw [h1]
    have h2 : ([i] : List Nat).filterMap
        (fun j => (t.entries.set i (some (k, v))).getD j none) = [(k, v)] := by
      rw [List.filterMap_cons]
      rw [getD_set_eq2 _ _ i _ hilen]
      rfl
    rw [h2]
  · intro k2 hk2
    obtain ⟨e, he, hemap⟩ := List.mem_filterMap.mp hk2
    rcases List.mem_or_eq_of_mem_set he with he2 | he2
    · exact Or.inl (List.mem_filterMap.mpr ⟨e, he2, hemap⟩)
    · right
      rw [he2] at hemap
      simpa using hemap.symm

/-- Inserting pairwise-distinct fresh keys that fit in the remaining
capacity appends them, in order, to the iteration sequence. -/
theorem insertAll_iterate_eq (kvs : List (List Nat × Int)) :
    ∀ t : DTable, DTableWF t →
      (∀ kv ∈ kvs, kv.1 ∉ tableKeys t) →
      kvs.Pairwise (fun a b => a.1 ≠ b.1) →
      t.count + kvs.length ≤ t.capacity →
      dtableIterate (insertAll t kvs) = dtableIterate t ++ kvs := by
  induction kvs with
  | nil =>
      intro t hwf hfresh hpw hcap
      simp [insertAll]
  | cons kv rest ih =>
      intro t hwf hfresh hpw hcap
      have hlt : t.count < t.capacity := by
        rw [List.length_cons] at hcap
        omega
      obtain ⟨hwf2, hcount2, hcap2, hiter2, hkeys2⟩ :=
        insert_fresh_props t kv.1 kv.2 hwf hlt (hfresh kv (List.mem_cons_self kv rest))
      have hpw2 := List.pairwise_cons.mp hpw
      have hstep : insertAll t (kv :: rest) =
          insertAll (dtableInsert t kv.1 kv.2).1 rest := rfl
      rw [hstep]
      rw [ih (dtableInsert t kv.1 kv.2).1 hwf2 (fun kv2 hkv2 hmem => ?_) hpw2.2 (by
        rw [hcount2, hcap2]
        rw [List.length_cons] at hcap
        omega)]
      · rw [hiter2, List.append_assoc]
        rfl
      · rcases hkeys2 kv2.1 hmem with h | h
        · exact hfresh kv2 (List.mem_cons_of_mem kv hkv2) h
        · exact hpw2.1 kv2 hkv2 h.symm

/-- C7 (amended): inserting any sequence of pairwise-distinct keys that
fits in the capacity of each of two tables makes both tables iterate the
inserted key/value pairs exactly, in insertion order — so both runs are
identical regardless of the capacities and of any hash collisions. -/
theorem C7_hash_iterate_insertion_order :
    ∀ (kvs : List (List Nat × Int)) (c1 c2 : Nat),
      kvs.Pairwise (fun a b => a.1 ≠ b.1) →
      kvs.length ≤ c1 → kvs.length ≤ c2 →
      dtableIterate (insertAll (dtableInit c1) kvs) = kvs ∧
      dtableIterate (insertAll (dtableInit c2) kvs) = kvs ∧
      dtableIterate (insertAll (dtableInit c1) kvs) =
        dtableIterate (insertAll (dtableInit c2) kvs) := by
  have main : ∀ (kvs : List (List Nat × Int)) (c : Nat),
      kvs.Pairwise (fun a b => a.1 ≠ b.1) → kvs.length ≤ c →
      dtableIterate (insertAll (dtableInit c) kvs) = kvs := by
    intro kvs c hpw hlen
    rw [insertAll_iterate_eq kvs (dtableInit c) (dtableInit_wf c)
      (fun kv hkv hmem => by rw [dtableInit_keys] at hmem; simp at hmem) hpw
      (by simp only [dtableInit]; omega)]
    rw [dtableInit_iterate]
    rfl
  intro kvs c1 c2 hpw h1 h2
  exact ⟨main kvs c1 hpw h1, main kvs c2 hpw h2, by
    rw [main kvs c1 hpw h1, main kvs c2 hpw h2]⟩

/-- C7 counterexample to the unrestricted claim: two distinct keys
inserted into tables of capacities 1 and 2 iterate differently — the
smaller table rejects the second insert with Full, so the claim as
stated (for every capacity) fails. -/
theorem C7_hash_iterate_capacity_counterexample :
    ¬ (dtableIterate (insertAll (dtableInit 1) [([97], 5), ([98], 7)]) =
       dtableIterate (insertAll (dtableInit 2) [([97], 5), ([98], 7)])) := by
  decide

/-- Witness instantiating the amended C7 at two distinct keys and
capacities 2 and 3. -/
theorem C7_hash_iterate_insertion_order_witness :
    dtableIterate (insertAll (dtableInit 2) [([97], 5), ([98], 7)]) =
        [([97], 5), ([98], 7)] ∧
      dtableIterate (insertAll (dtableInit 3) [([97], 5), ([98], 7)]) =
        [([97], 5), ([98], 7)] ∧
      dtableIterate (insertAll (dtableInit 2) [([97], 5), ([98], 7)]) =
        dtableIterate (insertAll (dtableInit 3) [([97], 5), ([98], 7)]) :=
  C7_hash_iterate_insertion_order [([97], 5), ([98], 7)] 2 3
    (by decide) (by decide) (by decide)
